import Mathlib

/-!
Verification of the PortsmouthRaceCalc scoring engine.

The definitions below are a shallow embedding of the Python sources under
src/: numbers held in Python float or decimal.Decimal values are modelled as
exact rationals (ℚ), Python ints as ℤ, Python lists as List, and the
per-race finish dictionary (keyed by skipper, duplicate insertion rejected
by Race.add_skipper_finish) as an association list with distinct keys.
Failure by exception is modelled with Except / Option.
-/

namespace PRC

/-- Python's built-in one-argument round applied to an exact value:
round to the nearest integer, exact halves to the even integer.  This is the
behaviour of round() both on float and (one-argument) on decimal.Decimal;
in the latter case the half-even mode is hard-coded and ignores the
context rounding mode set by the caller. -/
def pythonRound (q : ℚ) : ℤ :=
  let n := ⌊q⌋
  let r := q - n
  if r < 1/2 then n
  else if 1/2 < r then n + 1
  else if n % 2 = 0 then n else n + 1

/-- round_score from src/database/utils/__init__.py: computes
Decimal(round(score_in * 10)) / 10.  The function sets ROUND_HALF_UP on a
local decimal context, but the one-argument round() call does not consult
the context, so the value is rounded to one decimal place half-to-even. -/
def round_score (q : ℚ) : ℚ := (pythonRound (q * 10) : ℚ) / 10

theorem pythonRound_intCast (z : ℤ) : pythonRound (z : ℚ) = z := by
  simp [pythonRound]

theorem round_score_eq_self (q : ℚ) (k : ℤ) (h : q * 10 = (k : ℚ)) :
    round_score q = q := by
  rw [round_score, h, pythonRound_intCast, ← h]
  ring

/-- Every output of round_score is an integer number of tenths. -/
theorem round_score_mul_ten_int (q : ℚ) : ∃ k : ℤ, round_score q * 10 = (k : ℚ) := by
  refine ⟨pythonRound (q * 10), ?_⟩
  rw [round_score]
  ring

/-- RaceFinish variants from src/database/series/finishes (tagged union of
the RaceFinishInterface subclasses).  A time finish carries its raw input
and offset seconds together with the resolved handicap value
(boat.dpn_for_beaufort(wind_bf).value()); the boat/wind resolution itself is
modelled separately by dpn_for_beaufort below. -/
inductive Finish where
  | time (input_time_s offset_time_s : ℤ) (handicap : ℚ)
  | dnf
  | dq
  | dns
  | fip (place : ℤ)
  | rc
deriving DecidableEq

/-- finished() of the RaceFinishInterface subclasses: true for Time, FIP
and RC finishes, false for DNF, DQ and DNS. -/
def Finish.finished : Finish → Bool
  | .time _ _ _ => true
  | .fip _ => true
  | .rc => true
  | .dnf => false
  | .dq => false
  | .dns => false

/-- Tag check corresponding to isinstance(rt, finishes.RaceFinishRC). -/
def Finish.isRC : Finish → Bool
  | .rc => true
  | _ => false

/-- Tag check corresponding to isinstance(rt, finishes.RaceFinishTime). -/
def Finish.isTime : Finish → Bool
  | .time _ _ _ => true
  | _ => false

/-- RaceFinishTime.corrected_time_s: round(time_s * 100.0 / value()) with
time_s = input_time_s - offset_time_s; the float computation is modelled
exactly over ℚ. -/
def corrected_time_s (input_time_s offset_time_s : ℤ) (handicap : ℚ) : ℤ :=
  pythonRound (((input_time_s - offset_time_s : ℤ) : ℚ) * 100 / handicap)

/-- One race's finish records: the Race.race_times dictionary as an
association list (skipper identifier, finish), in insertion order. -/
abbrev RaceEntries := List (String × Finish)

/-- The corrected times of the RaceFinishTime entries of a race, in entry
order (Race.finished_race_times composed with corrected_time_s). -/
def raceCts (entries : RaceEntries) : List ℤ :=
  entries.filterMap (fun e => match e.2 with
    | .time i o h => some (corrected_time_s i o h)
    | _ => none)

/-- Race.min_time_s: collects the corrected times of the timed finishes and
tests len(valid_race_times) >= 0 before taking min(); the else branch would
return None.  Python's min on an empty sequence raises ValueError, modelled
as an error value. -/
def min_time_s (entries : RaceEntries) : Except String (Option ℤ) :=
  let valid_race_times := raceCts entries
  if valid_race_times.length ≥ 0 then
    match valid_race_times with
    | [] => .error "min() arg is an empty sequence"
    | t :: rest => .ok (some (rest.foldl min t))
  else
    .ok none

theorem foldl_min_mem (t : ℤ) (l : List ℤ) : l.foldl min t ∈ t :: l := by
  induction l generalizing t with
  | nil => simp
  | cons a l ih =>
    have h := ih (min t a)
    rw [List.foldl_cons]
    rcases List.mem_cons.mp h with h1 | h1
    · rcases min_choice t a with hm | hm
      · rw [h1, hm]; exact List.mem_cons_self _ _
      · rw [h1, hm]; exact List.mem_cons_of_mem _ (List.mem_cons_self _ _)
    · exact List.mem_cons_of_mem _ (List.mem_cons_of_mem _ h1)

theorem foldl_min_le (t : ℤ) (l : List ℤ) : ∀ u ∈ t :: l, l.foldl min t ≤ u := by
  induction l generalizing t with
  | nil =>
    intro u hu
    rcases List.mem_cons.mp hu with rfl | h
    · simp
    · simp at h
  | cons a l ih =>
    intro u hu
    rw [List.foldl_cons]
    have hmin : List.foldl min (min t a) l ≤ min t a :=
      ih (min t a) (min t a) (List.mem_cons_self _ _)
    rcases List.mem_cons.mp hu with rfl | hu1
    · exact le_trans hmin (min_le_left _ _)
    · rcases List.mem_cons.mp hu1 with rfl | hu2
      · exact le_trans hmin (min_le_right _ _)
      · exact ih (min t a) u (List.mem_cons_of_mem _ hu2)

/-- Claim C10: Race.min_time_s on a race with no timed finishes raises
(min of an empty sequence) rather than returning None, since the guard
len(valid_race_times) >= 0 is always true and the None branch is dead;
with at least one timed finish it returns the minimum corrected time. -/
theorem min_time_s_spec (entries : RaceEntries) :
    (raceCts entries = [] → min_time_s entries = .error "min() arg is an empty sequence") ∧
    (min_time_s entries ≠ .ok none) ∧
    (∀ t, t ∈ raceCts entries →
      ∃ m, min_time_s entries = .ok (some m) ∧ m ∈ raceCts entries ∧
        ∀ u ∈ raceCts entries, m ≤ u) := by
  refine ⟨?_, ?_, ?_⟩
  · intro h
    simp [min_time_s, h]
  · cases h : raceCts entries with
    | nil => simp [min_time_s, h]
    | cons a l => simp [min_time_s, h]
  · intro t ht
    cases h : raceCts entries with
    | nil => rw [h] at ht; simp at ht
    | cons a l =>
      refine ⟨l.foldl min a, ?_, ?_, ?_⟩
      · simp [min_time_s, h]
      · exact foldl_min_mem a l
      · intro u hu
        exact foldl_min_le a l u hu

/-- sum(range(current_place, current_place + num)) / num: the average of
the places occupied by one group of tied corrected times. -/
def avgFrom (cur : ℤ) (n : ℕ) : ℚ :=
  (((List.range n).map (fun (j : ℕ) => ((cur : ℚ) + (j : ℚ)))).sum) / (n : ℚ)

/-- The place_dict loop of Race.race_results: walk the ascending distinct
corrected times; each receives the tie-averaged score of the places its
group occupies and current_place advances by the group size (the count of
that corrected time among all timed finishes). -/
def placeFold (cts : List ℤ) : List ℤ → ℤ → List (ℤ × ℚ)
  | [], _ => []
  | t :: rest, cur =>
    (t, avgFrom cur (cts.count t)) :: placeFold cts rest (cur + (cts.count t : ℤ))

/-- sorted(result_times.keys()): the distinct corrected times of the race
in ascending order. -/
def sortedDistinct (l : List ℤ) : List ℤ := (l.insertionSort (· ≤ ·)).dedup

/-- place_dict[t]: the tie-averaged place score of corrected time t among
the race's corrected times (the key is always present for an actual
corrected time of the race). -/
def placeOfTime (cts : List ℤ) (t : ℤ) : ℚ :=
  ((placeFold cts (sortedDistinct cts) 1).lookup t).getD 0

/-- The values held by result_dict after the timed finishes and the
finish-in-place entries are inserted (each has already passed through
round_score once), before remaining_points is computed. -/
def timedFipScores (entries : RaceEntries) : List ℚ :=
  entries.filterMap (fun e => match e.2 with
    | .time i o h =>
      some (round_score (placeOfTime (raceCts entries) (corrected_time_s i o h)))
    | .fip p => some (round_score (p : ℚ))
    | _ => none)

/-- Python max over a list, None when empty. -/
def listMaxQ : List ℚ → Option ℚ
  | [] => none
  | x :: xs => some (xs.foldl max x)

/-- remaining_points of Race.race_results: max(result_dict.values()) + 1
when any timed or finish-in-place score exists, otherwise None. -/
def remainingPoints (entries : RaceEntries) : Option ℚ :=
  (listMaxQ (timedFipScores entries)).map (fun m => m + 1)

/-- The value result_dict holds for one finish record before the final
rounding pass.  none: the skipper does not appear in result_dict at all
(RC finishes); some none: present with value None (DQ, DNS, and DNF when
remaining_points is None). -/
def scoreOfEntry (entries : RaceEntries) : Finish → Option (Option ℚ)
  | .time i o h =>
    some (some (round_score (placeOfTime (raceCts entries) (corrected_time_s i o h))))
  | .fip p => some (some (round_score (p : ℚ)))
  | .dnf => some (remainingPoints entries)
  | .dq => some none
  | .dns => some none
  | .rc => none

/-- Race.race_results, read at one skipper: look the skipper up in the
race's finish dictionary (unique keys, enforced by add_skipper_finish) and
apply the final round_score pass.  A None value passes through the final
pass unchanged (the value-level behaviour of the utils round_score the
module was written against, which returns None for None). -/
def race_results (entries : RaceEntries) (s : String) : Option (Option ℚ) :=
  (entries.find? (fun e => e.1 == s)).bind
    (fun e => (scoreOfEntry entries e.2).map (Option.map round_score))

/-- Witness for C10 at a concrete race with two timed finishes. -/
theorem min_time_s_spec_w :
    (100 : ℤ) ∈ raceCts [("a", Finish.time 100 0 100), ("b", Finish.time 90 0 100)] ∧
    ∃ m, min_time_s [("a", Finish.time 100 0 100), ("b", Finish.time 90 0 100)] = .ok (some m) ∧
      m ∈ raceCts [("a", Finish.time 100 0 100), ("b", Finish.time 90 0 100)] ∧
      ∀ u ∈ raceCts [("a", Finish.time 100 0 100), ("b", Finish.time 90 0 100)], m ≤ u :=
  ⟨by with_unfolding_all decide, (min_time_s_spec [("a", Finish.time 100 0 100), ("b", Finish.time 90 0 100)]).2.2
    100 (by with_unfolding_all decide)⟩

theorem find?_eq_of_mem_of_nodup {entries : RaceEntries}
    (hnd : (entries.map Prod.fst).Nodup) {s : String} {f : Finish}
    (hm : (s, f) ∈ entries) :
    entries.find? (fun e => e.1 == s) = some (s, f) := by
  induction entries with
  | nil => simp at hm
  | cons e rest ih =>
    rw [List.map_cons, List.nodup_cons] at hnd
    rcases List.mem_cons.mp hm with rfl | hm1
    · rw [List.find?_cons_of_pos]
      simp
    · have hes : e.1 ≠ s := by
        intro he
        apply hnd.1
        rw [he]
        exact List.mem_map_of_mem Prod.fst hm1
      rw [List.find?_cons_of_neg]
      · exact ih hnd.2 hm1
      · simp [hes]

theorem mem_raceCts_of_time {entries : RaceEntries} {s : String} {i o : ℤ} {h : ℚ}
    (hm : (s, Finish.time i o h) ∈ entries) :
    corrected_time_s i o h ∈ raceCts entries := by
  rw [raceCts, List.mem_filterMap]
  exact ⟨(s, Finish.time i o h), hm, rfl⟩

theorem sortedDistinct_sorted (l : List ℤ) : (sortedDistinct l).Sorted (· < ·) := by
  have h1 : (l.insertionSort (· ≤ ·)).Sorted (· ≤ ·) := List.sorted_insertionSort _ l
  have h2 : (sortedDistinct l).Sorted (· ≤ ·) :=
    List.Pairwise.sublist (List.dedup_sublist _) h1
  exact h2.lt_of_le (List.nodup_dedup _)

theorem mem_sortedDistinct {l : List ℤ} {t : ℤ} : t ∈ sortedDistinct l ↔ t ∈ l := by
  rw [sortedDistinct, List.mem_dedup, (List.perm_insertionSort _ l).mem_iff]

theorem sum_counts_filter_lt (cts : List ℤ) (t : ℤ) :
    (((sortedDistinct cts).filter (fun u => decide (u < t))).map (fun u => cts.count u)).sum
      = cts.countP (fun u => decide (u < t)) := by
  have hperm := List.perm_insertionSort (· ≤ ·) cts
  have hcong :
      (((cts.insertionSort (· ≤ ·)).dedup.filter (fun u => decide (u < t))).map
          (fun u => cts.count u)).sum
        = (((cts.insertionSort (· ≤ ·)).dedup.filter (fun u => decide (u < t))).map
          (fun u => (cts.insertionSort (· ≤ ·)).count u)).sum := by
    congr 1
    exact List.map_congr_left (fun a _ => (hperm.count_eq a).symm)
  rw [sortedDistinct, hcong,
    List.sum_map_count_dedup_filter_eq_countP (fun u => decide (u < t)),
    hperm.countP_eq]

theorem placeFold_lookup (cts : List ℤ) (l : List ℤ) (cur : ℤ) (t : ℤ)
    (hs : l.Sorted (· < ·)) (ht : t ∈ l) :
    (placeFold cts l cur).lookup t =
      some (avgFrom
        (cur + (((l.filter (fun u => decide (u < t))).map (fun u => cts.count u)).sum : ℤ))
        (cts.count t)) := by
  induction l generalizing cur with
  | nil => simp at ht
  | cons a rest ih =>
    rw [List.sorted_cons] at hs
    rcases List.mem_cons.mp ht with rfl | ht1
    · have hfil : (t :: rest).filter (fun u => decide (u < t)) = [] := by
        rw [List.filter_eq_nil_iff]
        intro u hu
        rcases List.mem_cons.mp hu with rfl | hu1
        · simp
        · simp only [decide_eq_true_eq]
          exact not_lt.mpr (hs.1 u hu1).le
      rw [placeFold, hfil]
      simp [List.lookup]
    · have hat : a < t := hs.1 t ht1
      have hfil : (a :: rest).filter (fun u => decide (u < t)) =
          a :: rest.filter (fun u => decide (u < t)) := by
        rw [List.filter_cons_of_pos]
        simp [hat]
      rw [placeFold, hfil]
      have hne : (t == a) = false := by
        simp [(ne_of_lt hat).symm]
      simp only [List.lookup, hne]
      rw [ih (cur + (cts.count a : ℤ)) hs.2 ht1]
      congr 2
      push_cast [List.map_cons, List.sum_cons]
      ring

theorem avgFrom_sum (cur : ℤ) (n : ℕ) :
    ((List.range n).map (fun (j : ℕ) => ((cur : ℚ) + (j : ℚ)))).sum
      = (n : ℚ) * (cur : ℚ) + (n : ℚ) * ((n : ℚ) - 1) / 2 := by
  induction n with
  | zero => norm_num
  | succ m ih =>
    rw [List.range_succ, List.map_append, List.sum_append, ih]
    simp only [List.map_cons, List.map_nil, List.sum_cons, List.sum_nil]
    push_cast
    ring

theorem avgFrom_closed (cur : ℤ) (n : ℕ) (hn : n ≠ 0) :
    avgFrom cur n = (cur : ℚ) + ((n : ℚ) - 1) / 2 := by
  have hq : (n : ℚ) ≠ 0 := Nat.cast_ne_zero.mpr hn
  rw [avgFrom, avgFrom_sum]
  field_simp
  ring

theorem round_score_avgFrom (cur : ℤ) (n : ℕ) (hn : n ≠ 0) :
    round_score (avgFrom cur n) = avgFrom cur n := by
  apply round_score_eq_self _ (10 * cur + 5 * (n : ℤ) - 5)
  rw [avgFrom_closed cur n hn]
  push_cast
  ring

/-- Claim C5: in Race.race_results, timed finishes grouped by identical
corrected_time_s receive sequential 1-based places in ascending time order,
and every member of a tied group of size n starting at place p (one more
than the number of strictly smaller corrected times) scores
average(p, ..., p + n - 1). -/
theorem race_results_tie_split (entries : RaceEntries) (s : String) (i o : ℤ) (h : ℚ)
    (hnd : (entries.map Prod.fst).Nodup) (hm : (s, Finish.time i o h) ∈ entries) :
    race_results entries s =
      some (some (avgFrom
        (1 + ((raceCts entries).countP (fun u => decide (u < corrected_time_s i o h)) : ℤ))
        ((raceCts entries).count (corrected_time_s i o h)))) := by
  have hmem : corrected_time_s i o h ∈ raceCts entries := mem_raceCts_of_time hm
  have hnz : (raceCts entries).count (corrected_time_s i o h) ≠ 0 :=
    Nat.pos_iff_ne_zero.mp (List.count_pos_iff.mpr hmem)
  have hlk := placeFold_lookup (raceCts entries) (sortedDistinct (raceCts entries)) 1
    (corrected_time_s i o h) (sortedDistinct_sorted _) (mem_sortedDistinct.mpr hmem)
  have hpl : placeOfTime (raceCts entries) (corrected_time_s i o h) =
      avgFrom
        (1 + ((raceCts entries).countP (fun u => decide (u < corrected_time_s i o h)) : ℤ))
        ((raceCts entries).count (corrected_time_s i o h)) := by
    rw [placeOfTime, hlk, Option.getD_some, sum_counts_filter_lt]
  rw [race_results, find?_eq_of_mem_of_nodup hnd hm]
  simp [scoreOfEntry, hpl, round_score_avgFrom _ _ hnz]

/-- Witness for C5: a race with one clear winner and a two-way tie for
places 2 and 3; each tied skipper scores (2 + 3) / 2 = 2.5 points. -/
theorem race_results_tie_split_w :
    (([("a", Finish.time 50 0 100), ("b", Finish.time 100 0 100),
        ("c", Finish.time 100 0 100)] : RaceEntries).map Prod.fst).Nodup ∧
    ("c", Finish.time 100 0 100) ∈ ([("a", Finish.time 50 0 100),
        ("b", Finish.time 100 0 100), ("c", Finish.time 100 0 100)] : RaceEntries) ∧
    race_results [("a", Finish.time 50 0 100), ("b", Finish.time 100 0 100),
        ("c", Finish.time 100 0 100)] "c" =
      some (some (avgFrom
        (1 + ((raceCts [("a", Finish.time 50 0 100), ("b", Finish.time 100 0 100),
          ("c", Finish.time 100 0 100)]).countP
            (fun u => decide (u < corrected_time_s 100 0 100)) : ℤ))
        ((raceCts [("a", Finish.time 50 0 100), ("b", Finish.time 100 0 100),
          ("c", Finish.time 100 0 100)]).count (corrected_time_s 100 0 100)))) ∧
    avgFrom 2 2 = 5 / 2 :=
  ⟨by with_unfolding_all decide, by with_unfolding_all decide,
    race_results_tie_split _ "c" 100 0 100
      (by with_unfolding_all decide) (by with_unfolding_all decide),
    by with_unfolding_all decide⟩

theorem foldl_max_mem (t : ℚ) (l : List ℚ) : l.foldl max t ∈ t :: l := by
  induction l generalizing t with
  | nil => simp
  | cons a l ih =>
    have h := ih (max t a)
    rw [List.foldl_cons]
    rcases List.mem_cons.mp h with h1 | h1
    · rcases max_choice t a with hm | hm
      · rw [h1, hm]; exact List.mem_cons_self _ _
      · rw [h1, hm]; exact List.mem_cons_of_mem _ (List.mem_cons_self _ _)
    · exact List.mem_cons_of_mem _ (List.mem_cons_of_mem _ h1)

theorem listMaxQ_mem {l : List ℚ} {m : ℚ} (h : listMaxQ l = some m) : m ∈ l := by
  cases l with
  | nil => simp [listMaxQ] at h
  | cons x xs =>
    rw [listMaxQ, Option.some_inj] at h
    rw [← h]
    exact foldl_max_mem x xs

theorem timedFipScores_tenths (entries : RaceEntries) :
    ∀ x ∈ timedFipScores entries, ∃ k : ℤ, x * 10 = (k : ℚ) := by
  intro x hx
  rw [timedFipScores, List.mem_filterMap] at hx
  obtain ⟨e, _, hfe⟩ := hx
  rcases e with ⟨s1, f⟩
  cases f with
  | time i o h =>
    simp only [Option.some_inj] at hfe
    rw [← hfe]
    exact round_score_mul_ten_int _
  | fip p =>
    simp only [Option.some_inj] at hfe
    rw [← hfe]
    exact round_score_mul_ten_int _
  | dnf => simp at hfe
  | dq => simp at hfe
  | dns => simp at hfe
  | rc => simp at hfe

/-- Claim C1 (amended): Race.race_results assigns each DNF finish the value
remaining_points = max(result_dict.values()) + 1, the maximum over the
timed and finish-in-place scores plus one, provided at least one such score
exists (with none at all, the DNF value is None); it equals the starter
count only incidentally, e.g. for two distinctly-timed finishers + 1 DNF. -/
theorem race_results_dnf (entries : RaceEntries) (s : String) (m : ℚ)
    (hnd : (entries.map Prod.fst).Nodup) (hm : (s, Finish.dnf) ∈ entries)
    (hmax : listMaxQ (timedFipScores entries) = some m) :
    race_results entries s = some (some (m + 1)) := by
  obtain ⟨k, hk⟩ := timedFipScores_tenths entries m (listMaxQ_mem hmax)
  have hrs : round_score (m + 1) = m + 1 := by
    apply round_score_eq_self _ (k + 10)
    push_cast
    linarith [hk]
  rw [race_results, find?_eq_of_mem_of_nodup hnd hm]
  simp [scoreOfEntry, remainingPoints, hmax, hrs]

/-- Modelled from the spec wording of C1/C4: the number of starting entries
of a race, i.e. entries that are not RC duty. -/
def spec_starter_count (entries : RaceEntries) : ℕ :=
  (entries.filter (fun e => ! e.2.isRC)).length

/-- Counterexample to C1 as stated: a race with 3 starters (two timed
finishers tied on corrected time, one DNF).  The claim demands the DNF
score equal the starter count 3, but race_results gives the tied maximum
1.5 plus one, i.e. 2.5. -/
theorem race_results_dnf_cex :
    spec_starter_count [("a", Finish.time 100 0 100), ("b", Finish.time 100 0 100),
        ("c", Finish.dnf)] = 3 ∧
    race_results [("a", Finish.time 100 0 100), ("b", Finish.time 100 0 100),
        ("c", Finish.dnf)] "c" = some (some (5/2)) ∧
    ((5 : ℚ)/2) ≠ ((3 : ℕ) : ℚ) := by
  refine ⟨by with_unfolding_all decide, by with_unfolding_all decide,
    by with_unfolding_all decide⟩

/-- Witness for the amended C1, reproducing the spec's own example: two
timed finishers with distinct corrected times and one DNF; the maximum
timed score is 2, so the DNF skipper scores 3, which here coincides with
the starter count. -/
theorem race_results_dnf_w :
    (([("a", Finish.time 100 0 100), ("b", Finish.time 200 0 100),
        ("c", Finish.dnf)] : RaceEntries).map Prod.fst).Nodup ∧
    ("c", Finish.dnf) ∈ ([("a", Finish.time 100 0 100), ("b", Finish.time 200 0 100),
        ("c", Finish.dnf)] : RaceEntries) ∧
    listMaxQ (timedFipScores [("a", Finish.time 100 0 100), ("b", Finish.time 200 0 100),
        ("c", Finish.dnf)]) = some 2 ∧
    race_results [("a", Finish.time 100 0 100), ("b", Finish.time 200 0 100),
        ("c", Finish.dnf)] "c" = some (some (2 + 1)) :=
  ⟨by with_unfolding_all decide, by with_unfolding_all decide,
    by with_unfolding_all decide,
    race_results_dnf _ "c" 2 (by with_unfolding_all decide)
      (by with_unfolding_all decide) (by with_unfolding_all decide)⟩

/-- Claim C4 (amended): race_results stores each DQ finish with the value
None: the skipper appears in result_dict but receives no numeric score. -/
theorem race_results_dq (entries : RaceEntries) (s : String)
    (hnd : (entries.map Prod.fst).Nodup) (hm : (s, Finish.dq) ∈ entries) :
    race_results entries s = some none := by
  rw [race_results, find?_eq_of_mem_of_nodup hnd hm]
  simp [scoreOfEntry]

/-- Counterexample to C4 as stated: a race with 2 starters, one timed and
one DQ.  The claim demands the DQ score equal starter count + 2 = 4, but
race_results holds None for the DQ skipper. -/
theorem race_results_dq_cex :
    spec_starter_count [("a", Finish.time 100 0 100), ("b", Finish.dq)] = 2 ∧
    race_results [("a", Finish.time 100 0 100), ("b", Finish.dq)] "b" = some none ∧
    (some none : Option (Option ℚ)) ≠ some (some (((2 : ℕ) : ℚ) + 2)) := by
  refine ⟨by with_unfolding_all decide, by with_unfolding_all decide,
    by with_unfolding_all decide⟩

/-- Witness for the amended C4 at a concrete race. -/
theorem race_results_dq_w :
    (([("a", Finish.time 100 0 100), ("b", Finish.dq)] : RaceEntries).map Prod.fst).Nodup ∧
    ("b", Finish.dq) ∈ ([("a", Finish.time 100 0 100), ("b", Finish.dq)] : RaceEntries) ∧
    race_results [("a", Finish.time 100 0 100), ("b", Finish.dq)] "b" = some none :=
  ⟨by with_unfolding_all decide, by with_unfolding_all decide,
    race_results_dq _ "b" (by with_unfolding_all decide) (by with_unfolding_all decide)⟩

/-- One Race as seen by Series-level scoring: the Beaufort wind (None when
unset), the required number of starting skippers for validity, and the
finish dictionary.  Date, notes, fleet and the default-boat dictionary do
not enter the scoring computed here. -/
structure Race where
  wind_bf : Option ℤ
  required_skippers : ℕ
  entries : RaceEntries
deriving DecidableEq

/-- Race.valid: the wind is set and the number of non-RC finishes is at
least required_skippers. -/
def Race.valid (r : Race) : Bool :=
  r.wind_bf.isSome &&
    decide (r.required_skippers ≤ (r.entries.filter (fun e => ! e.2.isRC)).length)

/-- The membership test "skip in race race_finishes". -/
def Race.hasSkipper (r : Race) (s : String) : Bool := r.entries.any (fun e => e.1 == s)

/-- Race.valid_for_rc: the race is valid, or the skipper's finish in it is
an RC entry. -/
def Race.valid_for_rc (r : Race) (s : String) : Bool :=
  r.valid || ((r.entries.find? (fun e => e.1 == s)).map (fun e => e.2.isRC)).getD false

/-- Series.valid_races: the races that satisfy Race.valid. -/
def valid_races (races : List Race) : List Race := races.filter (fun r => r.valid)

/-- Tag check corresponding to isinstance(res, finishes.RaceFinishDNF). -/
def Finish.isDNF : Finish → Bool
  | .dnf => true
  | _ => false

/-- Series.skipper_num_finished: races (valid or not) in which the skipper
has a finish with finished() true that is not an RC entry. -/
def skipper_num_finished (races : List Race) (s : String) : ℕ :=
  (races.filter (fun r =>
    ((r.entries.find? (fun e => e.1 == s)).map
      (fun e => e.2.finished && ! e.2.isRC)).getD false)).length

/-- Series.skipper_num_rc: races in which the skipper's finish is RC. -/
def skipper_num_rc (races : List Race) (s : String) : ℕ :=
  (races.filter (fun r =>
    ((r.entries.find? (fun e => e.1 == s)).map (fun e => e.2.isRC)).getD false)).length

/-- Series.skipper_num_dnf: races in which the skipper's finish is DNF. -/
def skipper_num_dnf (races : List Race) (s : String) : ℕ :=
  (races.filter (fun r =>
    ((r.entries.find? (fun e => e.1 == s)).map (fun e => e.2.isDNF)).getD false)).length

/-- Series.qualify_count: the explicit override when present, otherwise
int(math.ceil(len(valid_races) / 2)). -/
def qualify_count (races : List Race) (override : Option ℤ) : ℤ :=
  match override with
  | some q => q
  | none => ⌈(((valid_races races).length : ℚ)) / 2⌉

/-- Series.skipper_qualifies: finished count (excluding RC) plus
min(2, RC count) plus DNF count meets qualify_count. -/
def skipper_qualifies (races : List Race) (override : Option ℤ) (s : String) : Bool :=
  decide (qualify_count races override ≤
    (skipper_num_finished races s : ℤ) + min 2 (skipper_num_rc races s : ℤ)
      + (skipper_num_dnf races s : ℤ))

/-- Claim C6: qualify_count equals the explicit override when set and
otherwise ceil(valid races / 2); a skipper with exactly qualify_count
counted races (finished excluding RC, plus min(2, RC), plus DNF) qualifies
and one with one fewer does not. -/
theorem qualification_boundary (races : List Race) (override : Option ℤ) (s : String) :
    (∀ q, qualify_count races (some q) = q) ∧
    (qualify_count races none = (((valid_races races).length : ℤ) + 1) / 2) ∧
    (((skipper_num_finished races s : ℤ) + min 2 (skipper_num_rc races s : ℤ)
        + (skipper_num_dnf races s : ℤ) = qualify_count races override) →
      skipper_qualifies races override s = true) ∧
    (((skipper_num_finished races s : ℤ) + min 2 (skipper_num_rc races s : ℤ)
        + (skipper_num_dnf races s : ℤ) + 1 = qualify_count races override) →
      skipper_qualifies races override s = false) := by
  refine ⟨fun q => rfl, ?_, ?_, ?_⟩
  · rw [qualify_count]
    have key : (⌈(((valid_races races).length : ℚ)) / 2⌉ : ℤ)
        = -((-((valid_races races).length : ℤ) : ℤ) / 2) := by
      rw [show (((valid_races races).length : ℚ)) / 2
          = -(((-((valid_races races).length : ℤ) : ℤ) : ℚ) / ((2 : ℕ) : ℚ)) by
        push_cast; ring]
      rw [Int.ceil_neg, Rat.floor_intCast_div_natCast]
      norm_num
    rw [key]
    omega
  · intro hEq
    rw [skipper_qualifies, decide_eq_true_eq]
    omega
  · intro hEq
    rw [skipper_qualifies]
    rw [decide_eq_false_iff_not]
    omega

/-- Witness for C6: two valid races; skipper a finished one race with
qualify_count = ceil(2/2) = 1, so a qualifies; skipper z has no counted
race and 0 + 1 = qualify_count, so z does not qualify. -/
theorem qualification_boundary_w :
    ((skipper_num_finished [⟨some 2, 0, [("a", Finish.time 100 0 100)]⟩,
        ⟨some 2, 0, [("b", Finish.time 100 0 100)]⟩] "a" : ℤ)
      + min 2 (skipper_num_rc [⟨some 2, 0, [("a", Finish.time 100 0 100)]⟩,
        ⟨some 2, 0, [("b", Finish.time 100 0 100)]⟩] "a" : ℤ)
      + (skipper_num_dnf [⟨some 2, 0, [("a", Finish.time 100 0 100)]⟩,
        ⟨some 2, 0, [("b", Finish.time 100 0 100)]⟩] "a" : ℤ)
      = qualify_count [⟨some 2, 0, [("a", Finish.time 100 0 100)]⟩,
        ⟨some 2, 0, [("b", Finish.time 100 0 100)]⟩] none) ∧
    skipper_qualifies [⟨some 2, 0, [("a", Finish.time 100 0 100)]⟩,
        ⟨some 2, 0, [("b", Finish.time 100 0 100)]⟩] none "a" = true ∧
    ((skipper_num_finished [⟨some 2, 0, [("a", Finish.time 100 0 100)]⟩,
        ⟨some 2, 0, [("b", Finish.time 100 0 100)]⟩] "z" : ℤ)
      + min 2 (skipper_num_rc [⟨some 2, 0, [("a", Finish.time 100 0 100)]⟩,
        ⟨some 2, 0, [("b", Finish.time 100 0 100)]⟩] "z" : ℤ)
      + (skipper_num_dnf [⟨some 2, 0, [("a", Finish.time 100 0 100)]⟩,
        ⟨some 2, 0, [("b", Finish.time 100 0 100)]⟩] "z" : ℤ) + 1
      = qualify_count [⟨some 2, 0, [("a", Finish.time 100 0 100)]⟩,
        ⟨some 2, 0, [("b", Finish.time 100 0 100)]⟩] none) ∧
    skipper_qualifies [⟨some 2, 0, [("a", Finish.time 100 0 100)]⟩,
        ⟨some 2, 0, [("b", Finish.time 100 0 100)]⟩] none "z" = false := by
  have hq : qualify_count [⟨some 2, 0, [("a", Finish.time 100 0 100)]⟩,
      ⟨some 2, 0, [("b", Finish.time 100 0 100)]⟩] none = 1 := by
    rw [(qualification_boundary [⟨some 2, 0, [("a", Finish.time 100 0 100)]⟩,
      ⟨some 2, 0, [("b", Finish.time 100 0 100)]⟩] none "a").2.1]
    with_unfolding_all decide
  refine ⟨?_, ?_, ?_, ?_⟩
  · rw [hq]; with_unfolding_all decide
  · apply (qualification_boundary _ none "a").2.2.1
    rw [hq]; with_unfolding_all decide
  · rw [hq]; with_unfolding_all decide
  · apply (qualification_boundary _ none "z").2.2.2
    rw [hq]; with_unfolding_all decide

/-- The values Series.get_skipper_rc_points collects for a skipper: over
the valid races containing the skipper, the skipper's race scores that are
present and not None — timed, finish-in-place, and DNF scores alike. -/
def rc_point_values (races : List Race) (s : String) : List ℚ :=
  ((valid_races races).filter (fun r => r.hasSkipper s)).filterMap
    (fun r => (race_results r.entries s).bind id)

/-- Series.get_skipper_rc_points: sort the collected values ascending; None
when there are none; pop the single highest when more than one value
exists; the RC credit is the mean of the remainder rounded to one decimal
(Decimal arithmetic modelled exactly over ℚ). -/
def get_skipper_rc_points (races : List Race) (s : String) : Option ℚ :=
  let sorted_values := (rc_point_values races s).insertionSort (· ≤ ·)
  if sorted_values.length = 0 then none
  else
    let kept := if 1 < sorted_values.length then sorted_values.dropLast else sorted_values
    some (round_score (kept.sum / (kept.length : ℚ)))

theorem sorted_getLast?_max {l : List ℚ} (hs : l.Sorted (· ≤ ·)) {m : ℚ}
    (hm : l.getLast? = some m) : ∀ v ∈ l, v ≤ m := by
  induction l with
  | nil => simp at hm
  | cons a rest ih =>
    intro v hv
    cases rest with
    | nil =>
      simp only [List.getLast?_singleton, Option.some_inj] at hm
      rcases List.mem_cons.mp hv with rfl | hv1
      · exact le_of_eq hm
      · simp at hv1
    | cons b rest2 =>
      rw [List.getLast?_cons_cons] at hm
      rcases List.mem_cons.mp hv with rfl | hv1
      · exact le_trans
          (List.rel_of_sorted_cons hs _ (List.mem_of_getLast?_eq_some hm)) (le_refl _)
      · exact ih hs.of_cons hm v hv1

/-- Claim C3 (amended): the RC credit is None when the skipper has no
collected scores; with a single collected score it is that score rounded;
with two or more it is the rounded mean of the collected scores after
removing one maximal value.  The collected scores are the skipper's
non-None placement scores over all valid races containing the skipper —
DNF scores included, not only races actually finished. -/
theorem rc_points_drop_highest (races : List Race) (s : String) :
    (rc_point_values races s = [] → get_skipper_rc_points races s = none) ∧
    (∀ v, rc_point_values races s = [v] →
      get_skipper_rc_points races s = some (round_score v)) ∧
    (2 ≤ (rc_point_values races s).length →
      ∃ m, m ∈ rc_point_values races s ∧ (∀ v ∈ rc_point_values races s, v ≤ m) ∧
        get_skipper_rc_points races s =
          some (round_score (((rc_point_values races s).sum - m) /
            (((rc_point_values races s).length : ℚ) - 1)))) := by
  refine ⟨?_, ?_, ?_⟩
  · intro h0
    simp [get_skipper_rc_points, h0, List.insertionSort]
  · intro v hv
    simp [get_skipper_rc_points, hv, List.insertionSort, List.orderedInsert]
  · intro h2
    have hperm : List.Perm ((rc_point_values races s).insertionSort (· ≤ ·))
        (rc_point_values races s) :=
      List.perm_insertionSort _ _
    have hlen : ((rc_point_values races s).insertionSort (· ≤ ·)).length
        = (rc_point_values races s).length := hperm.length_eq
    have hsort : ((rc_point_values races s).insertionSort (· ≤ ·)).Sorted (· ≤ ·) :=
      List.sorted_insertionSort _ _
    have hLne : (rc_point_values races s).insertionSort (· ≤ ·) ≠ [] := by
      intro hcon
      rw [hcon] at hlen
      simp at hlen
      omega
    have hm := List.getLast?_eq_getLast ((rc_point_values races s).insertionSort (· ≤ ·)) hLne
    have hcat := List.dropLast_concat_getLast hLne
    have hmax : ∀ v ∈ rc_point_values races s,
        v ≤ ((rc_point_values races s).insertionSort (· ≤ ·)).getLast hLne := by
      intro v hv
      exact sorted_getLast?_max hsort hm v (hperm.mem_iff.mpr hv)
    have hmem : ((rc_point_values races s).insertionSort (· ≤ ·)).getLast hLne
        ∈ rc_point_values races s :=
      hperm.subset (List.mem_of_getLast?_eq_some hm)
    have hsum : ((rc_point_values races s).insertionSort (· ≤ ·)).dropLast.sum
        + ((rc_point_values races s).insertionSort (· ≤ ·)).getLast hLne
        = (rc_point_values races s).sum := by
      have h1 := congrArg List.sum hcat
      rw [List.sum_append] at h1
      simpa using h1.trans hperm.sum_eq
    have hdl : ((rc_point_values races s).insertionSort (· ≤ ·)).dropLast.length
        = (rc_point_values races s).length - 1 := by
      rw [List.length_dropLast, hlen]
    refine ⟨_, hmem, hmax, ?_⟩
    have h1 : (1 : ℕ) ≤ (rc_point_values races s).length := by omega
    have hcast : (((rc_point_values races s).length - 1 : ℕ) : ℚ)
        = ((rc_point_values races s).length : ℚ) - 1 := by
      push_cast [Nat.cast_sub h1]
      ring
    simp only [get_skipper_rc_points]
    rw [if_neg (by omega), if_pos (by omega), hdl, hcast, eq_sub_of_add_eq hsum]

/-- Per the spec wording of C3: sort ascending, discard the single worst
(highest) value when more than one exists, average the remainder, round to
one decimal; None when there are no values. -/
def rc_credit_spec (vals : List ℚ) : Option ℚ :=
  let sorted_values := vals.insertionSort (· ≤ ·)
  if sorted_values.length = 0 then none
  else
    let kept := if 1 < sorted_values.length then sorted_values.dropLast else sorted_values
    some (round_score (kept.sum / (kept.length : ℚ)))

/-- Per the spec wording of C3: the skipper's placement scores from the
valid races the skipper actually finished (a finished, non-RC finish
recorded), excluding RC races. -/
def spec_finished_scores (races : List Race) (s : String) : List ℚ :=
  ((valid_races races).filter (fun r =>
      ((r.entries.find? (fun e => e.1 == s)).map
        (fun e => e.2.finished && ! e.2.isRC)).getD false)).filterMap
    (fun r => (race_results r.entries s).bind id)

/-- A three-race series for C3: skipper b DNFs race 1 (scoring 2, one more
than the sole timed finisher's 1), then finishes races 2 and 3 in places 4
and 6. -/
def exSeriesC3 : List Race :=
  [⟨some 2, 0, [("a", Finish.time 100 0 100), ("b", Finish.dnf)]⟩,
   ⟨some 2, 0, [("b", Finish.fip 4)]⟩,
   ⟨some 2, 0, [("b", Finish.fip 6)]⟩]

/-- Counterexample to C3 as stated: the claim takes only scores of races
the skipper finished ([4, 6], giving RC credit 4.0 after dropping the 6),
but the code also includes the DNF score 2, collects [2, 4, 6], drops the
6 and averages to 3.0. -/
theorem rc_points_cex :
    spec_finished_scores exSeriesC3 "b" = [4, 6] ∧
    rc_credit_spec (spec_finished_scores exSeriesC3 "b") = some 4 ∧
    get_skipper_rc_points exSeriesC3 "b" = some 3 ∧
    (some (3 : ℚ) : Option ℚ) ≠ some 4 := by
  refine ⟨by with_unfolding_all decide, by with_unfolding_all decide,
    by with_unfolding_all decide, by with_unfolding_all decide⟩

/-- Witness for the amended C3 at the example series: the collected scores
are [2, 4, 6] (the DNF score included), and the spec's arithmetic example
is reproduced: credit = average of [2, 4] = 3.0. -/
theorem rc_points_drop_highest_w :
    rc_point_values exSeriesC3 "b" = [2, 4, 6] ∧
    2 ≤ (rc_point_values exSeriesC3 "b").length ∧
    (∃ m, m ∈ rc_point_values exSeriesC3 "b" ∧
      (∀ v ∈ rc_point_values exSeriesC3 "b", v ≤ m) ∧
      get_skipper_rc_points exSeriesC3 "b" =
        some (round_score (((rc_point_values exSeriesC3 "b").sum - m) /
          (((rc_point_values exSeriesC3 "b").length : ℚ) - 1)))) ∧
    get_skipper_rc_points exSeriesC3 "b" = some 3 :=
  ⟨by with_unfolding_all decide, by with_unfolding_all decide,
    (rc_points_drop_highest exSeriesC3 "b").2.2 (by with_unfolding_all decide),
    by with_unfolding_all decide⟩

/-- SkipperRank: the raw rank and the position-based tie-broken rank. -/
structure SkipperRank where
  rank : ℤ
  rank_tie_broken : Option ℤ
deriving DecidableEq

/-- The rank-assignment walk of Series.__inner_get_skipper_rank: enumerate
the sorted standings; a skipper without a points list receives no rank but
still advances the position counter; one whose total score equals the last
ranked skipper's score inherits that skipper's rank; otherwise the rank is
the current 1-based position. -/
def buildRanks : List (String × Option ℚ) → ℕ → Option ℤ → Option ℚ →
    List (String × SkipperRank)
  | [], _, _, _ => []
  | (_, none) :: rest, i, last_rank, last_score =>
    buildRanks rest (i + 1) last_rank last_score
  | (s, some sc) :: rest, i, last_rank, last_score =>
    let current_rank : ℤ := (i : ℤ) + 1
    let r : ℤ := if last_score = some sc then last_rank.getD current_rank else current_rank
    (s, ⟨r, some current_rank⟩) :: buildRanks rest (i + 1) (some r) (some sc)

/-- The cleanup pass of __inner_get_skipper_rank: a rank value held by at
most one skipper has its tie-broken rank cleared to None. -/
def inner_ranks (standings : List (String × Option ℚ)) : List (String × SkipperRank) :=
  let base := buildRanks standings 0 none none
  base.map (fun p =>
    if (base.filter (fun p2 => p2.2.rank == p.2.rank)).length ≤ 1 then
      (p.1, ⟨p.2.rank, none⟩)
    else p)

/-- Qualifying standings as consumed by the walk: each skipper paired with
its present total score (in the sorted standings every qualifying skipper
precedes every non-qualifying one, and only qualifying skippers hold a
points list and hence a score). -/
def liftScores (standings : List (String × ℚ)) : List (String × Option ℚ) :=
  standings.map (fun p => (p.1, some p.2))

/-- The rank assigned to the skipper at 0-based position j. -/
def rank_at (standings : List (String × ℚ)) (j : ℕ) : Option ℤ :=
  ((inner_ranks (liftScores standings))[j]?).map (fun p => p.2.rank)

/-- The total score of the skipper at 0-based position j. -/
def score_at (standings : List (String × ℚ)) (j : ℕ) : Option ℚ :=
  (standings[j]?).map Prod.snd

theorem inner_ranks_rank (standings : List (String × Option ℚ)) (j : ℕ) :
    ((inner_ranks standings)[j]?).map (fun p => p.2.rank)
      = ((buildRanks standings 0 none none)[j]?).map (fun p => p.2.rank) := by
  simp only [inner_ranks, List.getElem?_map, Option.map_map]
  congr 1
  funext p
  simp only [Function.comp_apply]
  split
  · rfl
  · rfl

theorem buildRanks_lift_cons (st : String) (sc : ℚ) (rest : List (String × ℚ))
    (i : ℕ) (lr : Option ℤ) (ls : Option ℚ) :
    buildRanks (liftScores ((st, sc) :: rest)) i lr ls =
      (st, ⟨if ls = some sc then lr.getD ((i : ℤ) + 1) else (i : ℤ) + 1, some ((i : ℤ) + 1)⟩)
        :: buildRanks (liftScores rest) (i + 1)
          (some (if ls = some sc then lr.getD ((i : ℤ) + 1) else (i : ℤ) + 1)) (some sc) :=
  rfl

theorem buildRanks_head (l : List (String × ℚ)) (i : ℕ) (hne : l ≠ []) :
    ((buildRanks (liftScores l) i none none)[0]?).map (fun p => p.2.rank)
      = some ((i : ℤ) + 1) := by
  cases l with
  | nil => exact absurd rfl hne
  | cons p rest =>
    rcases p with ⟨st, sc⟩
    rw [buildRanks_lift_cons]
    simp

theorem buildRanks_pair (k : ℕ) (l : List (String × ℚ)) (i : ℕ)
    (lr : Option ℤ) (ls : Option ℚ) (hk : k + 1 < l.length) :
    ((l[k+1]?).map Prod.snd = (l[k]?).map Prod.snd →
      ((buildRanks (liftScores l) i lr ls)[k+1]?).map (fun p => p.2.rank)
        = ((buildRanks (liftScores l) i lr ls)[k]?).map (fun p => p.2.rank)) ∧
    ((l[k+1]?).map Prod.snd ≠ (l[k]?).map Prod.snd →
      ((buildRanks (liftScores l) i lr ls)[k+1]?).map (fun p => p.2.rank)
        = some ((i : ℤ) + (k : ℤ) + 2)) := by
  induction k generalizing l i lr ls with
  | zero =>
    rcases l with _ | ⟨⟨s1, sc1⟩, l2⟩
    · simp at hk
    rcases l2 with _ | ⟨⟨s2, sc2⟩, rest⟩
    · simp at hk
    rw [buildRanks_lift_cons, buildRanks_lift_cons]
    constructor
    · intro hsc
      simp only [List.getElem?_cons_zero, List.getElem?_cons_succ, Option.map_some'] at hsc ⊢
      have heq : sc1 = sc2 := (Option.some_inj.mp hsc).symm
      simp [heq]
    · intro hsc
      simp only [List.getElem?_cons_zero, List.getElem?_cons_succ, Option.map_some'] at hsc ⊢
      have hne2 : ¬ (some sc1 = some sc2) := by
        intro hcon
        exact hsc (by rw [Option.some_inj.mp hcon])
      simp [hne2]
      ring
  | succ k ih =>
    rcases l with _ | ⟨⟨s1, sc1⟩, rest⟩
    · simp at hk
    have hk2 : k + 1 < rest.length := by
      simp only [List.length_cons] at hk
      omega
    rw [buildRanks_lift_cons]
    have hih := ih rest (i + 1)
      (some (if ls = some sc1 then lr.getD ((i : ℤ) + 1) else (i : ℤ) + 1)) (some sc1) hk2
    constructor
    · intro hsc
      simp only [List.getElem?_cons_succ] at hsc ⊢
      exact hih.1 hsc
    · intro hsc
      simp only [List.getElem?_cons_succ] at hsc ⊢
      rw [hih.2 hsc]
      congr 1
      push_cast
      ring

/-- Claim C7: walking the sorted standings, the first ranked skipper gets
rank 1; a skipper whose total score equals the previous skipper's inherits
the previous skipper's rank; a skipper with a distinct score receives a
rank equal to its own 1-based position (standard competition ranking, not
previous rank + 1). -/
theorem rank_competition (standings : List (String × ℚ)) (k : ℕ)
    (hk : k + 1 < standings.length) :
    (rank_at standings 0 = some 1) ∧
    (score_at standings (k+1) = score_at standings k →
      rank_at standings (k+1) = rank_at standings k) ∧
    (score_at standings (k+1) ≠ score_at standings k →
      rank_at standings (k+1) = some ((k : ℤ) + 2)) := by
  have hne : standings ≠ [] := by
    intro h
    rw [h] at hk
    simp at hk
  have h0 := buildRanks_head standings 0 hne
  have hpair := buildRanks_pair k standings 0 none none hk
  refine ⟨?_, ?_, ?_⟩
  · rw [rank_at, inner_ranks_rank]
    simpa using h0
  · intro hsc
    simp only [score_at] at hsc
    rw [rank_at, rank_at, inner_ranks_rank, inner_ranks_rank]
    exact hpair.1 hsc
  · intro hsc
    simp only [score_at] at hsc
    rw [rank_at, inner_ranks_rank]
    have h2 := hpair.2 hsc
    simpa using h2

/-- Witness for C7: standings with two skippers tied on total score 1 and
a third with score 3; the tied pair share rank 1 and the third receives
rank 3 (its 1-based position), not 2. -/
theorem rank_competition_w :
    rank_at [("a", 1), ("b", 1), ("c", 3)] 0 = some 1 ∧
    score_at [("a", 1), ("b", 1), ("c", 3)] 1 = score_at [("a", 1), ("b", 1), ("c", 3)] 0 ∧
    rank_at [("a", 1), ("b", 1), ("c", 3)] 1 = rank_at [("a", 1), ("b", 1), ("c", 3)] 0 ∧
    score_at [("a", 1), ("b", 1), ("c", 3)] 2 ≠ score_at [("a", 1), ("b", 1), ("c", 3)] 1 ∧
    rank_at [("a", 1), ("b", 1), ("c", 3)] 2 = some ((1 : ℤ) + 2) :=
  ⟨(rank_competition [("a", 1), ("b", 1), ("c", 3)] 0 (by decide)).1,
    by with_unfolding_all decide,
    (rank_competition [("a", 1), ("b", 1), ("c", 3)] 0 (by decide)).2.1
      (by with_unfolding_all decide),
    by with_unfolding_all decide,
    (rank_competition [("a", 1), ("b", 1), ("c", 3)] 1 (by decide)).2.2
      (by with_unfolding_all decide)⟩

/-- Handicap pedigree (HandicapNumber.HandicapType). -/
inductive HandicapType where
  | standard
  | suspect
  | highly_suspect
deriving DecidableEq

/-- HandicapNumber: the exact numeric value (Python float modelled as ℚ)
plus the pedigree tag. -/
structure HandicapNumber where
  value : ℚ
  htype : HandicapType
deriving DecidableEq

/-- A Python runtime value passed as the beaufort argument: an int, or a
value of any other type (rejected by the type check). -/
inductive PyVal where
  | int (n : ℤ)
  | other (descr : String)
deriving DecidableEq

/-- BoatType as used by dpn selection: the per-wind handicap table
dpn_values.  Name, class, code, display code and the wind map are display
metadata that never reach dpn_for_beaufort. -/
structure BoatType where
  dpn_values : List (Option HandicapNumber)
deriving DecidableEq

/-- BoatType.dpn_for_beaufort: raises ValueError on a non-int argument;
selects index 1 for beaufort ≤ 1, 2 for ≤ 3, 3 for ≤ 4, else 4; when the
selected slot is None it prints a diagnostic and falls back to
dpn_values[0]; indexing past the end of dpn_values raises IndexError
(never reached for the 5-slot tables built by the loader). -/
def dpn_for_beaufort (b : BoatType) (beaufort : PyVal) :
    Except String (Option HandicapNumber) :=
  match beaufort with
  | .other _ => .error "Beaufort number must be of type int"
  | .int n =>
    let dpn_ind : ℕ := if n ≤ 1 then 1 else if n ≤ 3 then 2 else if n ≤ 4 then 3 else 4
    match b.dpn_values[dpn_ind]? with
    | none => .error "IndexError: list index out of range"
    | some dpn_val =>
      match dpn_val with
      | none =>
        match b.dpn_values[0]? with
        | none => .error "IndexError: list index out of range"
        | some v0 => .ok v0
      | some v => .ok (some v)

/-- Claim C9: for a boat whose table has the loader's 5 slots and a present
primary handicap, dpn_for_beaufort selects slot 1/2/3/4 by the fixed
thresholds ≤1 / ≤3 / ≤4 / else, substitutes the primary value when the
selected slot is absent, never raises on an integer argument, and rejects
any non-integer argument immediately. -/
theorem dpn_for_beaufort_spec (b : BoatType) (h0 : HandicapNumber)
    (hlen : b.dpn_values.length = 5) (hprim : b.dpn_values[0]? = some (some h0)) :
    (∀ n : ℤ, ∃ slot : Option HandicapNumber,
      b.dpn_values[(if n ≤ 1 then (1 : ℕ) else if n ≤ 3 then 2
        else if n ≤ 4 then 3 else 4)]? = some slot ∧
      dpn_for_beaufort b (.int n) = .ok (some (slot.getD h0))) ∧
    (∀ descr, dpn_for_beaufort b (.other descr)
      = .error "Beaufort number must be of type int") := by
  constructor
  · intro n
    have hidx : (if n ≤ 1 then (1 : ℕ) else if n ≤ 3 then 2 else if n ≤ 4 then 3 else 4)
        < b.dpn_values.length := by
      rw [hlen]
      split_ifs <;> norm_num
    obtain ⟨slot, hslot⟩ : ∃ slot, b.dpn_values[(if n ≤ 1 then (1 : ℕ) else if n ≤ 3 then 2
        else if n ≤ 4 then 3 else 4)]? = some slot :=
      ⟨_, List.getElem?_eq_getElem hidx⟩
    refine ⟨slot, hslot, ?_⟩
    cases slot with
    | none =>
      simp [dpn_for_beaufort, hslot, hprim]
    | some v =>
      simp [dpn_for_beaufort, hslot]
  · intro descr
    rfl

/-- Witness for C9 at a concrete 5-slot table: beaufort 2 selects slot 2
(present, value 97); a non-integer argument is rejected. -/
theorem dpn_for_beaufort_spec_w :
    (BoatType.mk [some ⟨100, HandicapType.standard⟩, none,
        some ⟨97, HandicapType.suspect⟩, none, none]).dpn_values.length = 5 ∧
    (BoatType.mk [some ⟨100, HandicapType.standard⟩, none,
        some ⟨97, HandicapType.suspect⟩, none, none]).dpn_values[0]?
      = some (some ⟨100, HandicapType.standard⟩) ∧
    (∃ slot : Option HandicapNumber,
      (BoatType.mk [some ⟨100, HandicapType.standard⟩, none,
        some ⟨97, HandicapType.suspect⟩, none, none]).dpn_values[(if (2 : ℤ) ≤ 1 then (1 : ℕ)
          else if (2 : ℤ) ≤ 3 then 2 else if (2 : ℤ) ≤ 4 then 3 else 4)]? = some slot ∧
      dpn_for_beaufort (BoatType.mk [some ⟨100, HandicapType.standard⟩, none,
        some ⟨97, HandicapType.suspect⟩, none, none]) (.int 2)
        = .ok (some (slot.getD ⟨100, HandicapType.standard⟩))) ∧
    dpn_for_beaufort (BoatType.mk [some ⟨100, HandicapType.standard⟩, none,
        some ⟨97, HandicapType.suspect⟩, none, none]) (.other "float: 2.0")
      = .error "Beaufort number must be of type int" :=
  ⟨by with_unfolding_all decide, by with_unfolding_all decide,
    (dpn_for_beaufort_spec _ ⟨100, HandicapType.standard⟩
      (by with_unfolding_all decide) (by with_unfolding_all decide)).1 2,
    (dpn_for_beaufort_spec _ ⟨100, HandicapType.standard⟩
      (by with_unfolding_all decide) (by with_unfolding_all decide)).2 "float: 2.0"⟩

/-- The character of one decimal digit, offset from '0' as produced by
Python's str conversion. -/
def digitChar (d : ℕ) : Char := Char.ofNat ('0'.toNat + d)

/-- The numeric value of a decimal digit character (int() semantics),
None for any other character. -/
def digitVal (c : Char) : Option ℕ :=
  if '0' ≤ c ∧ c ≤ '9' then some (c.toNat - '0'.toNat) else none

/-- Decimal rendering of a natural number, most significant digit first
(fuelled to stay structurally recursive). -/
def renderNatFuel : ℕ → ℕ → List Char
  | 0, _ => []
  | fuel + 1, n =>
    if n < 10 then [digitChar n]
    else renderNatFuel fuel (n / 10) ++ [digitChar (n % 10)]

/-- Decimal rendering of a natural number. -/
def renderNat (n : ℕ) : List Char := renderNatFuel (n + 1) n

/-- Accumulating decimal parse of a digit string. -/
def parseFold : ℕ → List Char → Option ℕ
  | acc, [] => some acc
  | acc, c :: rest => (digitVal c).bind (fun d => parseFold (acc * 10 + d) rest)

/-- Parse a nonempty all-digit string. -/
def parseNatDigits (cs : List Char) : Option ℕ :=
  match cs with
  | [] => none
  | _ => parseFold 0 cs

theorem digitVal_digitChar (d : ℕ) (hd : d < 10) : digitVal (digitChar d) = some d := by
  interval_cases d <;> decide

theorem digitVal_isSome_ne (c : Char) (h : (digitVal c).isSome) :
    c ≠ '.' ∧ c ≠ '(' ∧ c ≠ '[' := by
  refine ⟨?_, ?_, ?_⟩ <;> intro hc <;> subst hc <;> exact absurd h (by decide)

theorem renderNatFuel_congr (f1 : ℕ) : ∀ f2 n, n < f1 → n < f2 →
    renderNatFuel f1 n = renderNatFuel f2 n := by
  induction f1 with
  | zero => intro f2 n h1 h2; omega
  | succ f ih =>
    intro f2 n h1 h2
    cases f2 with
    | zero => omega
    | succ g =>
      rw [renderNatFuel, renderNatFuel]
      by_cases hn : n < 10
      · simp [hn]
      · simp only [if_neg hn]
        rw [ih g (n / 10) (by omega) (by omega)]

theorem renderNat_small (n : ℕ) (h : n < 10) : renderNat n = [digitChar n] := by
  rw [renderNat, renderNatFuel]
  simp [h]

theorem renderNat_step (n : ℕ) (h : 10 ≤ n) :
    renderNat n = renderNat (n / 10) ++ [digitChar (n % 10)] := by
  rw [renderNat, renderNatFuel]
  rw [if_neg (not_lt.mpr h)]
  rw [renderNatFuel_congr n (n / 10 + 1) (n / 10) (by omega) (by omega)]
  rfl

theorem renderNat_ne_nil (n : ℕ) : renderNat n ≠ [] := by
  by_cases h : n < 10
  · rw [renderNat_small n h]
    simp
  · rw [renderNat_step n (not_lt.mp h)]
    simp

theorem renderNat_digits (n : ℕ) : ∀ c ∈ renderNat n, (digitVal c).isSome := by
  induction n using Nat.strong_induction_on with
  | _ n ih =>
    intro c hc
    by_cases h : n < 10
    · rw [renderNat_small n h] at hc
      rcases List.mem_singleton.mp hc with rfl
      rw [digitVal_digitChar n h]
      rfl
    · rw [renderNat_step n (not_lt.mp h)] at hc
      rcases List.mem_append.mp hc with h1 | h1
      · exact ih (n / 10) (by omega) c h1
      · rcases List.mem_singleton.mp h1 with rfl
        rw [digitVal_digitChar (n % 10) (by omega)]
        rfl

theorem parseFold_append (acc : ℕ) (xs ys : List Char) :
    parseFold acc (xs ++ ys) = (parseFold acc xs).bind (fun a => parseFold a ys) := by
  induction xs generalizing acc with
  | nil => simp [parseFold]
  | cons c rest ih =>
    rw [List.cons_append, parseFold, parseFold]
    cases digitVal c with
    | none => simp
    | some d => simp [ih]

theorem parseFold_renderNat (n : ℕ) : ∀ acc,
    parseFold acc (renderNat n) = some (acc * 10 ^ (renderNat n).length + n) := by
  induction n using Nat.strong_induction_on with
  | _ n ih =>
    intro acc
    by_cases hn : n < 10
    · rw [renderNat_small n hn, parseFold, digitVal_digitChar n hn]
      simp [parseFold]
    · rw [renderNat_step n (not_lt.mp hn), parseFold_append,
        ih (n / 10) (by omega) acc]
      rw [Option.some_bind, parseFold, digitVal_digitChar (n % 10) (by omega)]
      simp only [Option.some_bind, parseFold, List.length_append,
        List.length_singleton]
      congr 1
      have hmod := Nat.div_add_mod n 10
      ring_nf
      omega

theorem parseNatDigits_renderNat (n : ℕ) : parseNatDigits (renderNat n) = some n := by
  have h1 := parseFold_renderNat n 0
  cases h : renderNat n with
  | nil => exact absurd h (renderNat_ne_nil n)
  | cons c rest =>
    rw [h] at h1
    have h2 : parseNatDigits (c :: rest) = parseFold 0 (c :: rest) := rfl
    rw [h2, h1]
    simp

/-- float(s) restricted to the plain decimal literals the handicap tables
use: digit characters with at most one dot and at least one digit (signs,
exponents and special values never occur in the data). -/
def parseDecimal (cs : List Char) : Option ℚ :=
  let intPart := cs.takeWhile (fun c => c ≠ '.')
  match cs.dropWhile (fun c => c ≠ '.') with
  | [] => (parseNatDigits cs).map (fun n => (n : ℚ))
  | _ :: frac =>
    if frac.any (fun c => c = '.') then none
    else
      match intPart, frac with
      | [], [] => none
      | _, _ =>
        match (if intPart.isEmpty then some 0 else parseNatDigits intPart),
            (if frac.isEmpty then some 0 else parseNatDigits frac) with
        | some n, some f => some ((n : ℚ) + (f : ℚ) / (10 : ℚ) ^ frac.length)
        | _, _ => none

/-- HandicapNumber.from_string over the characters of the input: empty
input is rejected; a leading parenthesis or bracket must be matched by the
final character and marks the pedigree; the remaining characters must parse
as a decimal number (float), else the load fails. -/
def hn_from_string (cs : List Char) : Except String HandicapNumber :=
  match cs with
  | [] => .error "No valid string found"
  | c :: rest =>
    if c = '(' then
      match (c :: rest).getLast? with
      | some ')' =>
        match parseDecimal rest.dropLast with
        | some v => .ok ⟨v, .suspect⟩
        | none => .error "could not convert string to float"
      | _ => .error "did not find matching closing parenthesis )"
    else if c = '[' then
      match (c :: rest).getLast? with
      | some ']' =>
        match parseDecimal rest.dropLast with
        | some v => .ok ⟨v, .highly_suspect⟩
        | none => .error "could not convert string to float"
      | _ => .error "did not find matching closing bracket ]"
    else
      match parseDecimal cs with
      | some v => .ok ⟨v, .standard⟩
      | none => .error "could not convert string to float"

/-- The three-digit fractional field of %.3f: the digits of f left-padded
with zeros to width 3. -/
def pad3 (f : ℕ) : List Char :=
  List.replicate (3 - (renderNat f).length) '0' ++ renderNat f

/-- Rendering of a nonnegative thousandths count m as integer part, dot,
and three fractional digits. -/
def format3core (m : ℕ) : List Char :=
  renderNat (m / 1000) ++ '.' :: pad3 (m % 1000)

/-- Python '{:0.03f}'.format(v): the value is rounded to three decimals
(round-to-nearest, exact for every value arising here) and printed with
exactly three fractional digits. -/
def format3 (q : ℚ) : List Char :=
  let m := pythonRound (q * 1000)
  if m < 0 then '-' :: format3core (-m).toNat else format3core m.toNat

/-- HandicapNumber._surround_with_correct_brackets. -/
def wrapPedigree (t : HandicapType) (cs : List Char) : List Char :=
  match t with
  | .standard => cs
  | .suspect => '(' :: cs ++ [')']
  | .highly_suspect => '[' :: cs ++ [']']

/-- HandicapNumber.__str__: the value at three decimals, wrapped according
to the pedigree. -/
def hn_str (h : HandicapNumber) : List Char := wrapPedigree h.htype (format3 h.value)

theorem parseFold_zeros : ∀ (k : ℕ) (acc : ℕ),
    parseFold acc (List.replicate k '0') = some (acc * 10 ^ k) := by
  intro k
  induction k with
  | zero => intro acc; simp [parseFold]
  | succ m ih =>
    intro acc
    rw [List.replicate_succ, parseFold]
    have hd : digitVal '0' = some 0 := by decide
    rw [hd, Option.some_bind, ih (acc * 10 + 0)]
    congr 1
    ring

theorem pad3_digits (f : ℕ) : ∀ c ∈ pad3 f, (digitVal c).isSome := by
  intro c hc
  rcases List.mem_append.mp hc with h1 | h1
  · rcases List.eq_of_mem_replicate h1 with rfl
    rfl
  · exact renderNat_digits f c h1

theorem renderNat_length_le : ∀ (k n : ℕ), n < 10 ^ k → 1 ≤ k →
    (renderNat n).length ≤ k := by
  intro k
  induction k with
  | zero => intro n h1 h2; omega
  | succ m ih =>
    intro n h1 h2
    by_cases hn : n < 10
    · rw [renderNat_small n hn]
      simp
    · have hm : 1 ≤ m := by
        by_contra hcon
        have : m = 0 := by omega
        subst this
        simp [pow_one] at h1
        omega
      rw [renderNat_step n (not_lt.mp hn)]
      rw [List.length_append, List.length_singleton]
      have hlt : n / 10 < 10 ^ m := by
        rw [pow_succ] at h1
        omega
      have := ih (n / 10) hlt hm
      omega

theorem pad3_length (f : ℕ) (hf : f < 1000) : (pad3 f).length = 3 := by
  have h1 : (renderNat f).length ≤ 3 :=
    renderNat_length_le 3 f (by norm_num; omega) (by norm_num)
  rw [pad3, List.length_append, List.length_replicate]
  omega

theorem parseNatDigits_pad3 (f : ℕ) : parseNatDigits (pad3 f) = some f := by
  have hne : pad3 f ≠ [] := by
    rw [pad3]
    intro hcon
    rcases List.append_eq_nil.mp hcon with ⟨_, h2⟩
    exact renderNat_ne_nil f h2
  have h1 : parseFold 0 (pad3 f) = some f := by
    rw [pad3, parseFold_append, parseFold_zeros]
    rw [Option.some_bind, parseFold_renderNat f]
    simp
  cases h : pad3 f with
  | nil => exact absurd h hne
  | cons c rest =>
    rw [h] at h1
    have h2 : parseNatDigits (c :: rest) = parseFold 0 (c :: rest) := rfl
    rw [h2, h1]

theorem takeWhile_append_stop (p : Char → Bool) (xs : List Char) (y : Char)
    (ys : List Char) (hxs : ∀ c ∈ xs, p c = true) (hy : p y = false) :
    (xs ++ y :: ys).takeWhile p = xs ∧ (xs ++ y :: ys).dropWhile p = y :: ys := by
  induction xs with
  | nil =>
    simp [List.takeWhile, List.dropWhile, hy]
  | cons c rest ih =>
    have hc : p c = true := hxs c (List.mem_cons_self _ _)
    have hrest : ∀ d ∈ rest, p d = true := fun d hd => hxs d (List.mem_cons_of_mem _ hd)
    rw [List.cons_append]
    constructor
    · rw [List.takeWhile_cons, hc]
      simp [(ih hrest).1]
    · rw [List.dropWhile_cons, hc]
      simp [(ih hrest).2]

theorem parseDecimal_canonical (n f : ℕ) (hf : f < 1000) :
    parseDecimal (renderNat n ++ '.' :: pad3 f) = some ((n : ℚ) + (f : ℚ) / 1000) := by
  have hdig : ∀ c ∈ renderNat n, (fun c => decide (c ≠ '.')) c = true := by
    intro c hc
    have h1 := (digitVal_isSome_ne c (renderNat_digits n c hc)).1
    simp [h1]
  have hdot : (fun c => decide (c ≠ '.')) '.' = false := by simp
  obtain ⟨ht, hd⟩ := takeWhile_append_stop _ (renderNat n) '.' (pad3 f) hdig hdot
  have hnodot : (pad3 f).any (fun c => c = '.') = false := by
    rw [List.any_eq_false]
    intro c hc
    have h1 := (digitVal_isSome_ne c (pad3_digits f c hc)).1
    simp [h1]
  rw [parseDecimal]
  simp only [ht, hd, hnodot]
  have hrne : renderNat n ≠ [] := renderNat_ne_nil n
  have hpne : pad3 f ≠ [] := by
    intro hcon
    have := pad3_length f hf
    rw [hcon] at this
    simp at this
  cases hr : renderNat n with
  | nil => exact absurd hr hrne
  | cons c1 r1 =>
    cases hp : pad3 f with
    | nil => exact absurd hp hpne
    | cons c2 r2 =>
      simp only [Bool.false_eq_true, if_false, List.isEmpty_cons]
      rw [← hr, ← hp, parseNatDigits_renderNat, parseNatDigits_pad3]
      rw [pad3_length f hf]
      norm_num

theorem format3_canonical (n f : ℕ) (hf : f < 1000) :
    format3 ((n : ℚ) + (f : ℚ) / 1000) = renderNat n ++ '.' :: pad3 f := by
  have hm : pythonRound (((n : ℚ) + (f : ℚ) / 1000) * 1000) = ((1000 * n + f : ℕ) : ℤ) := by
    rw [show ((n : ℚ) + (f : ℚ) / 1000) * 1000 = (((1000 * n + f : ℕ) : ℤ) : ℚ) by
      push_cast; ring]
    exact pythonRound_intCast _
  rw [format3]
  simp only [hm]
  rw [if_neg (show ¬ ((1000 * n + f : ℕ) : ℤ) < 0 by omega)]
  have h1 : ((1000 * n + f : ℕ) : ℤ).toNat = 1000 * n + f := rfl
  rw [h1, format3core]
  have h2 : (1000 * n + f) / 1000 = n := by omega
  have h3 : (1000 * n + f) % 1000 = f := by omega
  rw [h2, h3]

/-- Claim C8 (amended): the string round-trip format(parse(s)) = s holds
exactly for the canonical strings the formatter produces — a decimal
number with exactly three fractional digits, optionally wrapped in
parentheses (suspect) or brackets (highly suspect) — because __str__
renders the value with '{:0.03f}'. -/
theorem handicap_roundtrip (n f : ℕ) (hf : f < 1000) (ped : HandicapType) :
    hn_from_string (wrapPedigree ped (renderNat n ++ '.' :: pad3 f))
      = .ok ⟨(n : ℚ) + (f : ℚ) / 1000, ped⟩ ∧
    (hn_from_string (wrapPedigree ped (renderNat n ++ '.' :: pad3 f))).map hn_str
      = .ok (wrapPedigree ped (renderNat n ++ '.' :: pad3 f)) := by
  have hparse := parseDecimal_canonical n f hf
  have hfmt := format3_canonical n f hf
  have hmain : hn_from_string (wrapPedigree ped (renderNat n ++ '.' :: pad3 f))
      = .ok ⟨(n : ℚ) + (f : ℚ) / 1000, ped⟩ := by
    obtain ⟨c1, r1, hr⟩ : ∃ c1 r1, renderNat n = c1 :: r1 := by
      cases h : renderNat n with
      | nil => exact absurd h (renderNat_ne_nil n)
      | cons c1 r1 => exact ⟨c1, r1, rfl⟩
    have hmem1 : c1 ∈ renderNat n := by
      rw [hr]
      exact List.mem_cons_self _ _
    have hc1 : (digitVal c1).isSome := renderNat_digits n c1 hmem1
    have hne1 : ¬ (c1 = '(') := fun hcon => (digitVal_isSome_ne c1 hc1).2.1 hcon
    have hne2 : ¬ (c1 = '[') := fun hcon => (digitVal_isSome_ne c1 hc1).2.2 hcon
    cases ped with
    | standard =>
      rw [wrapPedigree, hr, List.cons_append]
      rw [hn_from_string]
      rw [if_neg hne1, if_neg hne2]
      rw [← List.cons_append, ← hr, hparse]
    | suspect =>
      rw [wrapPedigree, List.cons_append]
      rw [hn_from_string]
      rw [if_pos rfl]
      rw [show ('(' :: ((renderNat n ++ '.' :: pad3 f) ++ [')'])).getLast? = some ')' by
        rw [← List.cons_append]
        exact List.getLast?_concat _]
      rw [List.dropLast_concat]
      rw [hparse]
      rfl
    | highly_suspect =>
      rw [wrapPedigree, List.cons_append]
      rw [hn_from_string]
      rw [if_neg (show ¬ ('[' : Char) = '(' by decide), if_pos rfl]
      rw [show ('[' :: ((renderNat n ++ '.' :: pad3 f) ++ [']'])).getLast? = some ']' by
        rw [← List.cons_append]
        exact List.getLast?_concat _]
      rw [List.dropLast_concat]
      rw [hparse]
      rfl
  refine ⟨hmain, ?_⟩
  rw [hmain]
  rw [show (Except.ok (⟨(n : ℚ) + (f : ℚ) / 1000, ped⟩ : HandicapNumber)
      : Except String HandicapNumber).map hn_str
    = Except.ok (hn_str ⟨(n : ℚ) + (f : ℚ) / 1000, ped⟩) from rfl]
  rw [hn_str, hfmt]

/-- Counterexample to C8 as stated: the valid handicap string "100.0"
parses to value 100 (standard pedigree), but formatting renders three
decimals, giving "100.000" which differs from "100.0". -/
theorem handicap_roundtrip_cex :
    hn_from_string ['1', '0', '0', '.', '0']
      = .ok ⟨100, HandicapType.standard⟩ ∧
    (hn_from_string ['1', '0', '0', '.', '0']).map hn_str
      = .ok ['1', '0', '0', '.', '0', '0', '0'] ∧
    (['1', '0', '0', '.', '0', '0', '0'] : List Char) ≠ ['1', '0', '0', '.', '0'] := by
  refine ⟨by with_unfolding_all rfl, by with_unfolding_all rfl, by decide⟩

/-- Witness for the amended C8 at the canonical suspect string
"(100.000)". -/
theorem handicap_roundtrip_w :
    (0 : ℕ) < 1000 ∧
    (hn_from_string (wrapPedigree HandicapType.suspect (renderNat 100 ++ '.' :: pad3 0))
        = .ok ⟨(100 : ℚ) + (0 : ℚ) / 1000, HandicapType.suspect⟩ ∧
      (hn_from_string (wrapPedigree HandicapType.suspect
          (renderNat 100 ++ '.' :: pad3 0))).map hn_str
        = .ok (wrapPedigree HandicapType.suspect (renderNat 100 ++ '.' :: pad3 0))) :=
  ⟨by decide, handicap_roundtrip 100 0 (by decide) HandicapType.suspect⟩

theorem pythonRound_near (q : ℚ) : |q - (pythonRound q : ℚ)| ≤ 1/2 := by
  have h1 : (⌊q⌋ : ℚ) ≤ q := Int.floor_le q
  have h2 : q < ⌊q⌋ + 1 := Int.lt_floor_add_one q
  simp only [pythonRound]
  split_ifs with hc1 hc2 hc3
  · rw [abs_le]
    constructor <;> linarith
  · rw [abs_le]
    push_cast
    constructor <;> linarith
  · have hr : q - ⌊q⌋ = 1/2 := le_antisymm (not_lt.mp hc2) (not_lt.mp hc1)
    rw [abs_le]
    constructor <;> linarith
  · have hr : q - ⌊q⌋ = 1/2 := le_antisymm (not_lt.mp hc2) (not_lt.mp hc1)
    rw [abs_le]
    push_cast
    constructor <;> linarith

theorem pythonRound_nearest (q : ℚ) (z : ℤ) :
    |q - (pythonRound q : ℚ)| ≤ |q - (z : ℚ)| := by
  by_cases hz : z = pythonRound q
  · rw [hz]
  · have hne : pythonRound q - z ≠ 0 := sub_ne_zero.mpr (fun hh => hz hh.symm)
    have h1 : (1 : ℤ) ≤ |pythonRound q - z| := Int.one_le_abs hne
    have h1q : (1 : ℚ) ≤ |(pythonRound q : ℚ) - (z : ℚ)| := by
      have : ((|pythonRound q - z| : ℤ) : ℚ) = |(pythonRound q : ℚ) - (z : ℚ)| := by
        push_cast
        rfl
      rw [← this]
      exact_mod_cast h1
    have htri : |(pythonRound q : ℚ) - z| ≤ |(pythonRound q : ℚ) - q| + |q - z| :=
      abs_sub_le _ q _
    have hnear := pythonRound_near q
    have hcomm : |(pythonRound q : ℚ) - q| = |q - (pythonRound q : ℚ)| := abs_sub_comm _ _
    linarith

theorem pythonRound_tie_even (q : ℚ) (ht : q - ⌊q⌋ = 1/2) : pythonRound q % 2 = 0 := by
  simp only [pythonRound, ht]
  rw [if_neg (lt_irrefl _), if_neg (lt_irrefl _)]
  by_cases hp : ⌊q⌋ % 2 = 0
  · rw [if_pos hp]
    exact hp
  · rw [if_neg hp]
    omega

/-- Claim C2 (amended): corrected_time_s is the integer nearest to
elapsed * 100 / handicap, with exact halves resolved to the even integer
(Python's banker's rounding), not upward. -/
theorem corrected_time_nearest (i o : ℤ) (h : ℚ) (_hh : 0 < h) :
    |((i - o : ℤ) : ℚ) * 100 / h - (corrected_time_s i o h : ℚ)| ≤ 1/2 ∧
    (∀ z : ℤ, |((i - o : ℤ) : ℚ) * 100 / h - (corrected_time_s i o h : ℚ)|
        ≤ |((i - o : ℤ) : ℚ) * 100 / h - (z : ℚ)|) ∧
    (((i - o : ℤ) : ℚ) * 100 / h - ⌊((i - o : ℤ) : ℚ) * 100 / h⌋ = 1/2 →
      corrected_time_s i o h % 2 = 0) := by
  refine ⟨pythonRound_near _, fun z => pythonRound_nearest _ z, fun ht => ?_⟩
  exact pythonRound_tie_even _ ht

/-- The rounding rule the original claim asserts: nearest integer with
exact halves rounded up. -/
def spec_round_half_up (q : ℚ) : ℤ := ⌊q + 1/2⌋

/-- Counterexample to C2 as stated: elapsed 5 s, handicap 200.  The exact
quotient is 2.5; the code rounds to the even integer 2, while the claimed
ties-up rule demands 3. -/
theorem corrected_time_cex :
    corrected_time_s 5 0 200 = 2 ∧
    spec_round_half_up (((5 - 0 : ℤ) : ℚ) * 100 / 200) = 3 ∧
    (2 : ℤ) ≠ 3 := by
  refine ⟨by with_unfolding_all decide, by with_unfolding_all decide, by decide⟩

/-- Witness for the amended C2 at the spec's end-to-end example
(2400 s elapsed, handicap 100). -/
theorem corrected_time_nearest_w :
    (0 : ℚ) < 100 ∧
    (|((2400 - 0 : ℤ) : ℚ) * 100 / 100 - (corrected_time_s 2400 0 100 : ℚ)| ≤ 1/2 ∧
    (∀ z : ℤ, |((2400 - 0 : ℤ) : ℚ) * 100 / 100 - (corrected_time_s 2400 0 100 : ℚ)|
        ≤ |((2400 - 0 : ℤ) : ℚ) * 100 / 100 - (z : ℚ)|) ∧
    (((2400 - 0 : ℤ) : ℚ) * 100 / 100 - ⌊((2400 - 0 : ℤ) : ℚ) * 100 / 100⌋ = 1/2 →
      corrected_time_s 2400 0 100 % 2 = 0)) :=
  ⟨by norm_num, corrected_time_nearest 2400 0 100 (by norm_num)⟩

end PRC
